import Mathlib

/-!
Verification of the progress-tracking, routing and sanitization logic of the
ai-practitioner-path single-page application.

The JavaScript sources are shallowly embedded:
* JS values that can appear in a parsed JSON progress payload (and as raw
  arguments of the public store operations) are modelled by `JSVal`
  (numbers restricted to integers, which covers every value the code ever
  stores or compares; arrays are not modelled).
* JS objects are modelled as association lists `List (String × _)` with
  first-match lookup, replace-or-append update and single deletion,
  mirroring unique-key JS object semantics.
* `parseInt` (string coercion included) is modelled by `parseIntJS`,
  including whitespace skipping, an optional sign, a hexadecimal prefix and
  trailing garbage.
* `Date.now()` is passed explicitly as an integer `now` parameter.
-/

namespace AIPath

/-- JS values appearing in parsed progress JSON and as raw call arguments.
Numbers are restricted to integers (the code only ever stores or validates
integral millisecond timestamps); arrays are not modelled. -/
inductive JSVal where
  | num (n : Int)
  | str (s : String)
  | jbool (b : Bool)
  | jnull
  | obj (fields : List (String × JSVal))

/-- JS truthiness of a `JSVal` (objects are always truthy, `0`, `""`,
`false` and `null` are falsy). -/
def jsTruthy : JSVal → Bool
  | .num n => n != 0
  | .str s => s ≠ ""
  | .jbool b => b
  | .jnull => false
  | .obj _ => true

/-- Decimal digit character for a value below ten. -/
def digitChar : Nat → Char
  | 0 => '0' | 1 => '1' | 2 => '2' | 3 => '3' | 4 => '4'
  | 5 => '5' | 6 => '6' | 7 => '7' | 8 => '8' | 9 => '9'
  | _ => '*'

/-- Numeric value of a decimal digit character. -/
def digitVal (c : Char) : Nat := c.toNat - 48

/-- Most-significant-first evaluation of a decimal digit list. -/
def digitsToNat (l : List Char) : Nat :=
  l.foldl (fun a c => 10 * a + digitVal c) 0

/-- Decimal digits, least significant first, by structural recursion on a
fuel bound (any fuel at least the number itself is enough, since dividing
by ten strictly shrinks a number of ten or more). -/
def natDigitsRevGo : Nat → Nat → List Char
  | 0, n => [digitChar n]
  | fuel + 1, n =>
      if n < 10 then [digitChar n]
      else digitChar (n % 10) :: natDigitsRevGo fuel (n / 10)

/-- Decimal digits of a natural number, least significant first. -/
def natDigitsRev (n : Nat) : List Char := natDigitsRevGo n n

/-- Decimal string of a natural number. -/
def natToStr (n : Nat) : String := String.mk (natDigitsRev n).reverse

/-- Plain decimal numeral string of an integer (the shape of a numeric
key in a stored JSON record; not the JS number-to-string coercion, which
switches to exponent notation at large magnitudes). -/
def intDecStr (i : Int) : String :=
  if i < 0 then String.mk ('-' :: (natDigitsRev (-i).toNat).reverse)
  else natToStr i.toNat

/-- ECMAScript Number-to-String on a magnitude: plain decimal below
`10^21`; at or above it, exponent notation — the leading significant
digit, a dot and the remaining significant digits when there are any,
then `e+` and the decimal exponent (the digit count minus one). -/
def jsMagChars (m : Nat) : List Char :=
  if m < 1000000000000000000000 then (natDigitsRev m).reverse
  else
    let sig := ((natDigitsRev m).dropWhile (fun c => c = '0')).reverse
    match sig with
    | [] => ['0']
    | d :: rest =>
        (d :: (if rest.isEmpty then [] else '.' :: rest)) ++
          ('e' :: '+' :: (natDigitsRev ((natDigitsRev m).length - 1)).reverse)

/-- JS number-to-string conversion on integral numbers, following the
ECMAScript algorithm for exactly represented values (the model keeps
integers exact, so double rounding at extreme magnitudes is not
modelled; the decisive behavior — exponent notation from `10^21` on,
which makes a later `parseInt` read only the leading digit — is). -/
def intToStr (i : Int) : String :=
  if i < 0 then String.mk ('-' :: jsMagChars (-i).toNat)
  else String.mk (jsMagChars i.toNat)

/-- JS string coercion of a value, as used when a value is an object
property key or a `parseInt` argument. -/
def jsToStr : JSVal → String
  | .num n => intToStr n
  | .str s => s
  | .jbool b => if b then "true" else "false"
  | .jnull => "null"
  | .obj _ => "[object Object]"

/-- Whitespace skipped by JS `parseInt` (the common ASCII kinds). -/
def jsWhitespace (c : Char) : Bool :=
  c = ' ' || c = '\t' || c = '\n' || c = '\r'

/-- Value of a hexadecimal digit character, if it is one. -/
def hexVal (c : Char) : Option Nat :=
  if c.isDigit then some (c.toNat - 48)
  else if 'a' ≤ c ∧ c ≤ 'f' then some (c.toNat - 87)
  else if 'A' ≤ c ∧ c ≤ 'F' then some (c.toNat - 55)
  else none

/-- Test for a hexadecimal digit character. -/
def isHexChar (c : Char) : Bool := (hexVal c).isSome

/-- Most-significant-first evaluation of a hexadecimal digit list. -/
def hexToNat (l : List Char) : Nat :=
  l.foldl (fun a c => 16 * a + ((hexVal c).getD 0)) 0

/-- Longest decimal-digit prefix of a character list, `none` if empty
(mirrors the digit-collection phase of JS `parseInt`). -/
def decimalPrefix (l : List Char) : Option Nat :=
  let ds := l.takeWhile Char.isDigit
  if ds.isEmpty then none else some (digitsToNat ds)

/-- Unsigned phase of JS `parseInt`: a `0x`/`0X` prefix switches to
hexadecimal, otherwise the longest decimal prefix is taken. -/
def parseUnsigned (l : List Char) : Option Nat :=
  match l with
  | c0 :: c1 :: r =>
      if c0 = '0' ∧ (c1 = 'x' ∨ c1 = 'X') then
        let hs := r.takeWhile isHexChar
        if hs.isEmpty then none else some (hexToNat hs)
      else decimalPrefix l
  | _ => decimalPrefix l

/-- JS `parseInt` on a character list: skip whitespace, optional sign,
then the unsigned phase; `none` models `NaN`. -/
def parseIntCore (l : List Char) : Option Int :=
  let l1 := l.dropWhile jsWhitespace
  match l1 with
  | [] => none
  | c :: r =>
      if c = '+' then (parseUnsigned r).map Int.ofNat
      else if c = '-' then (parseUnsigned r).map (fun n => -(Int.ofNat n))
      else (parseUnsigned (c :: r)).map Int.ofNat

/-- JS `parseInt` applied to the string coercion of a value. -/
def parseIntJS (s : String) : Option Int := parseIntCore s.data

section AssocOps

variable {α : Type}

/-- First-match lookup in a JS-object association list. -/
def jget : List (String × α) → String → Option α
  | [], _ => none
  | (k, v) :: rest, key => if k = key then some v else jget rest key

/-- Replace-or-append update of a JS-object association list. -/
def jset : List (String × α) → String → α → List (String × α)
  | [], key, v => [(key, v)]
  | (k, w) :: rest, key, v =>
      if k = key then (k, v) :: rest else (k, w) :: jset rest key v

/-- Deletion of the first binding of a key (the only one, for unique-key
JS objects). -/
def jerase : List (String × α) → String → List (String × α)
  | [], _ => []
  | (k, w) :: rest, key => if k = key then rest else (k, w) :: jerase rest key

end AssocOps

/-! Progress store (src/js/progress.js), with the localStorage validation
override of the application bootstrap file. A stored progress record maps a
mission key (a string) to a module map, which maps a module key (a string)
to a stored JS value (a timestamp after validation). -/

/-- Module map of one mission: module key to stored value. -/
abbrev ModMap := List (String × JSVal)

/-- In-memory progress record: mission key to module map. -/
abbrev ProgressRec := List (String × ModMap)

/-- Epoch milliseconds of the fixed floor date 2020-01-01 used by
`isValidTimestamp`. -/
def floorMs : Int := 1577836800000

/-- Total number of missions in the course structure. -/
def totalMissions : Int := 5

/-- The `modulesPerMission` table of the course structure, looked up by the
parsed mission number; `none` models an `undefined` lookup. -/
def modulesPerMission (m : Int) : Option Int :=
  if m = 1 then some 3 else if m = 2 then some 3 else if m = 3 then some 3
  else if m = 4 then some 4 else if m = 5 then some 3 else none

/-- The `modulesPerMission` table looked up with a raw string property key,
as `isMissionComplete` does with its unparsed argument. -/
def mpmKey (s : String) : Option Int :=
  if s = "1" then some 3 else if s = "2" then some 3 else if s = "3" then some 3
  else if s = "4" then some 4 else if s = "5" then some 3 else none

/-- Module count for a mission number, defaulting like a JS comparison with
`undefined` would fail (used only under an in-range guard). -/
def modCount (m : Int) : Int := (modulesPerMission m).getD 0

/-- ProgressTracker.isValidTimestamp: a number, strictly positive, not in
the future and strictly after the floor date. -/
def isValidTimestamp (now : Int) : JSVal → Bool
  | .num t => decide (t > 0) && decide (t ≤ now) && decide (t > floorMs)
  | _ => false

/-- One module entry check of `isValidProgressData`: the key parses to a
truthy in-range integer and the value is a valid timestamp. -/
def validModuleEntry (now : Int) (maxModules : Int) (e : String × JSVal) : Bool :=
  match parseIntJS e.1 with
  | none => false
  | some n => decide (n ≠ 0) && decide (1 ≤ n) && decide (n ≤ maxModules) &&
      isValidTimestamp now e.2

/-- One mission entry check of `isValidProgressData`: the key parses to a
truthy integer in `[1, totalMissions]`, the value is an object, and every
module entry under it is valid. -/
def validMissionEntry (now : Int) (e : String × JSVal) : Bool :=
  match parseIntJS e.1 with
  | none => false
  | some m => decide (m ≠ 0) && decide (1 ≤ m) && decide (m ≤ totalMissions) &&
      match e.2 with
      | .obj mods => mods.all (validModuleEntry now ((modulesPerMission m).getD 0))
      | _ => false

/-- ProgressTracker.isValidProgressData: all-or-nothing validation of a
candidate record (used by `loadProgress` and `importProgress`). -/
def isValidProgressData (now : Int) : JSVal → Bool
  | .obj fields => fields.all (validMissionEntry now)
  | _ => false

/-- ProgressTracker.isValidMission on a raw argument. -/
def isValidMission (mv : JSVal) : Bool :=
  match parseIntJS (jsToStr mv) with
  | none => false
  | some m => decide (1 ≤ m) && decide (m ≤ totalMissions)

/-- ProgressTracker.isValidMissionModule on raw arguments. -/
def isValidMissionModule (mv nv : JSVal) : Bool :=
  if !isValidMission mv then false
  else
    match parseIntJS (jsToStr mv), parseIntJS (jsToStr nv) with
    | some m, some n =>
        match modulesPerMission m with
        | some mx => decide (1 ≤ n) && decide (n ≤ mx)
        | none => false
    | some _, none => false
    | none, _ => false

/-- ProgressTracker.setModuleCompletion: returns the JS return value and the
updated record; raw arguments are used as property keys via string
coercion, the parsed values only for validation. -/
def setModuleCompletion (p : ProgressRec) (mv nv completed : JSVal) (now : Int) :
    Bool × ProgressRec :=
  if !isValidMissionModule mv nv then (false, p)
  else if jsTruthy completed then
    let mk := jsToStr mv
    let cur := (jget p mk).getD []
    (true, jset p mk (jset cur (jsToStr nv) (.num now)))
  else
    let mk := jsToStr mv
    match jget p mk with
    | none => (true, p)
    | some mods =>
        let mods2 := jerase mods (jsToStr nv)
        if mods2.isEmpty then (true, jerase p mk) else (true, jset p mk mods2)

/-- ProgressTracker.isModuleComplete: double-negated truthiness of the
stored entry, `false` for invalid mission/module arguments. -/
def isModuleComplete (p : ProgressRec) (mv nv : JSVal) : Bool :=
  if !isValidMissionModule mv nv then false
  else
    match jget p (jsToStr mv) with
    | none => false
    | some mods =>
        match jget mods (jsToStr nv) with
        | none => false
        | some tv => jsTruthy tv

/-- Module indices `1 .. mx` iterated by the `for` loops of the tracker. -/
def moduleIdxList (mx : Int) : List Int :=
  (List.range mx.toNat).map (fun i => Int.ofNat i + 1)

/-- ProgressTracker.isMissionComplete: looks the loop bound up with the raw
argument as property key; an `undefined` bound makes the loop run zero
times, so the function returns `true` in that case. -/
def isMissionComplete (p : ProgressRec) (mv : JSVal) : Bool :=
  if !isValidMission mv then false
  else
    match mpmKey (jsToStr mv) with
    | none => true
    | some mx => (moduleIdxList mx).all (fun n => isModuleComplete p mv (.num n))

/-- ProgressTracker.validateProgress: per-entry cleanup; invalid missions
and modules are deleted individually and emptied missions removed. -/
def validateProgress (now : Int) (p : ProgressRec) : ProgressRec :=
  p.filterMap (fun e =>
    match parseIntJS e.1 with
    | none => none
    | some m =>
        if m = 0 ∨ m < 1 ∨ m > totalMissions then none
        else
          let mods2 := e.2.filter (validModuleEntry now ((modulesPerMission m).getD 0))
          if mods2.isEmpty then none else some (e.1, mods2))

/-- Module-level pass of the bootstrap validateProgressData override: keeps
entries whose key parses in range and whose value is a positive number,
re-keyed by the canonical decimal of the parsed module number. -/
def appValidateModules (mods : List (String × JSVal)) (mx : Int) :
    List (String × JSVal) :=
  mods.foldl (fun acc e =>
    match parseIntJS e.1 with
    | none => acc
    | some n =>
        if n < 1 ∨ n > mx then acc
        else match e.2 with
          | .num t => if t > 0 then jset acc (intToStr n) (.num t) else acc
          | _ => acc) []

/-- Bootstrap validateProgressData: per-entry filter applied by the
localStorage getter override before the tracker parses the stored value.
A mission whose modules all get dropped still leaves an empty module
object. -/
def appValidate : JSVal → ProgressRec
  | .obj fields =>
      fields.foldl (fun acc e =>
        match parseIntJS e.1 with
        | none => acc
        | some m =>
            if m < 1 ∨ m > 5 then acc
            else match e.2 with
              | .obj mods =>
                  jset acc (intToStr m)
                    (appValidateModules mods (if m = 4 then 4 else 3))
              | _ => acc) []
  | _ => []

/-- JSON value of an in-memory record (JSON round trip through the
localStorage override). -/
def recToJSVal (p : ProgressRec) : JSVal :=
  .obj (p.map (fun e => (e.1, .obj e.2)))

/-- ProgressTracker.loadProgress behind the localStorage override: the
override filters per entry, then the tracker accepts the filtered record
all-or-nothing. -/
def loadProgress (stored : Option JSVal) (now : Int) : ProgressRec :=
  match stored with
  | none => []
  | some v =>
      let w := appValidate v
      if isValidProgressData now (recToJSVal w) then w else []

/-- ProgressTracker.init: loadProgress followed by validateProgress. -/
def initStore (stored : Option JSVal) (now : Int) : ProgressRec :=
  validateProgress now (loadProgress stored now)

/-- Object fields of one level of an imported payload, with JS unique-key
object semantics (a later duplicate key overwrites). -/
def modsOfVal : JSVal → List (String × JSVal)
  | .obj l => l.foldl (fun acc e => jset acc e.1 e.2) []
  | _ => []

/-- In-memory record built from an imported payload object (the shallow
copy taken by importProgress). -/
def recOfVal : JSVal → ProgressRec
  | .obj fields => fields.foldl (fun acc e => jset acc e.1 (modsOfVal e.2)) []
  | _ => []

/-- ProgressTracker.importProgress: all-or-nothing validation, then the
record is replaced by a shallow copy of the payload. -/
def importProgress (p : ProgressRec) (payload : JSVal) (now : Int) :
    Bool × ProgressRec :=
  if isValidProgressData now payload then (true, recOfVal payload) else (false, p)

/-- ProgressTracker.exportProgress: wraps a copy of the record with an
export timestamp and a version tag. -/
def exportProgress (p : ProgressRec) (now : Int) : JSVal :=
  .obj [("data", recToJSVal p), ("exportedAt", .num now), ("version", .str "1.0")]

/-- Field lookup on a JS object value. -/
def jfield : JSVal → String → Option JSVal
  | .obj fields, k => jget fields k
  | _, _ => none

/-- ProgressTracker.resetProgress: a no-op without the confirmation flag,
otherwise clears the record. -/
def resetProgress (p : ProgressRec) (confirm : JSVal) : Bool × ProgressRec :=
  if !jsTruthy confirm then (false, p) else (true, [])

/-- Mission indices `1 .. totalMissions` iterated by the tracker loops. -/
def missionIdxList : List Int :=
  (List.range totalMissions.toNat).map (fun i => Int.ofNat i + 1)

/-- All (mission, module) slots of the curriculum in mission-major order,
as traversed by getNextRecommendedModule. -/
def curriculumSlots : List (Int × Int) :=
  missionIdxList.flatMap (fun m => (moduleIdxList (modCount m)).map (fun n => (m, n)))

/-- ProgressTracker.getNextRecommendedModule: first incomplete slot in
curriculum order, `none` when the loops fall through. -/
def getNextRecommendedModule (p : ProgressRec) : Option (Int × Int) :=
  curriculumSlots.find? (fun q => !isModuleComplete p (.num q.1) (.num q.2))

/-! Router (src/js/router.js). -/

/-- Router.navigateModule: the pure prev/next computation; `some` is the
(mission, module) route passed to showModule, `none` the early return that
leaves the current route unchanged. -/
def navigateModule (currentMission currentModule direction : Int) :
    Option (Int × Int) :=
  let nextModule := currentModule + direction
  let mcount : Int := if currentMission = 4 then 4 else 3
  let step :=
    if nextModule > mcount then (currentMission + 1, (1 : Int))
    else if nextModule < 1 then
      (currentMission - 1, if currentMission - 1 = 4 then (4 : Int) else 3)
    else (currentMission, nextModule)
  if step.1 < 1 ∨ step.1 > 5 then none else some step

/-! Content sanitizer (src/js/content.js). The DOM fragment produced by
assigning `innerHTML` is modelled as a list of nodes; the HTML parser has
already lowercased tag and attribute names in this representation. -/

/-- Parsed DOM node: an element with ordered attributes and children, or a
text node. -/
inductive HNode where
  | elem (tag : String) (attrs : List (String × String)) (children : List HNode)
  | text (s : String)

/-- Tags removed by the querySelectorAll pass of sanitizeHTML. -/
def dangTag (t : String) : Bool :=
  t = "script" || t = "object" || t = "embed" || t = "iframe"

mutual
/-- Removal of dangerous elements: `script.remove()` detaches the whole
subtree, so a matching element disappears with all its descendants. -/
def stripDangerous : HNode → Option HNode
  | .text s => some (.text s)
  | .elem t a c => if dangTag t then none else some (.elem t a (stripDangerousList c))

/-- Removal of dangerous elements over a child list. -/
def stripDangerousList : List HNode → List HNode
  | [] => []
  | x :: xs =>
      match stripDangerous x with
      | none => stripDangerousList xs
      | some y => y :: stripDangerousList xs
end

/-- Event-handler attribute test: the name starts with the two characters
of the handler marker. -/
def isOnName (s : String) : Bool :=
  match s.data with
  | 'o' :: 'n' :: _ => true
  | _ => false

/-- The live-collection loop of sanitizeHTML over one element's attribute
map: the iterator yields index `i` and advances, and removing the yielded
attribute shifts the rest down, so the entry after a removed one is never
visited. -/
def jsAttrLoopGo : Nat → List (String × String) → Nat → List (String × String)
  | 0, attrs, _ => attrs
  | fuel + 1, attrs, i =>
      if h : i < attrs.length then
        if isOnName (attrs.get ⟨i, h⟩).1 then jsAttrLoopGo fuel (attrs.eraseIdx i) (i + 1)
        else jsAttrLoopGo fuel attrs (i + 1)
      else attrs

/-- The loop terminates once the index reaches the live length; the gap
between length and index shrinks every step, so a fuel of the initial
length plus one always suffices. -/
def jsAttrLoop (attrs : List (String × String)) (i : Nat) :
    List (String × String) :=
  jsAttrLoopGo (attrs.length + 1) attrs i

mutual
/-- Attribute-removal pass of sanitizeHTML over a node. -/
def removeOnAttrs : HNode → HNode
  | .text s => .text s
  | .elem t a c => .elem t (jsAttrLoop a 0) (removeOnAttrsList c)

/-- Attribute-removal pass over a child list. -/
def removeOnAttrsList : List HNode → List HNode
  | [] => []
  | x :: xs => removeOnAttrs x :: removeOnAttrsList xs
end

/-- ContentLoader.sanitizeHTML on a parsed fragment: remove dangerous
elements, then run the attribute loop on every remaining element. -/
def sanitizeHTML (fragment : List HNode) : List HNode :=
  removeOnAttrsList (stripDangerousList fragment)

/-! Sequences of public store operations, for the record invariants. -/

/-- One public mutation of the progress store, with the clock value at
which it runs. -/
inductive StoreOp where
  | setCompletion (mv nv completed : JSVal) (now : Int)
  | doImport (payload : JSVal) (now : Int)
  | doReset (confirm : JSVal)
  | doLoad (stored : Option JSVal) (now : Int)

/-- Effect of one public operation on the record. -/
def applyOp (p : ProgressRec) : StoreOp → ProgressRec
  | .setCompletion mv nv c now => (setModuleCompletion p mv nv c now).2
  | .doImport payload now => (importProgress p payload now).2
  | .doReset confirm => (resetProgress p confirm).2
  | .doLoad stored now => initStore stored now

/-- Record reached from `p` by a sequence of public operations. -/
def runOps (p : ProgressRec) (ops : List StoreOp) : ProgressRec :=
  ops.foldl applyOp p

/-- Clock value of an operation, if it reads the clock. -/
def opTime : StoreOp → Option Int
  | .setCompletion _ _ _ now => some now
  | .doImport _ now => some now
  | .doReset _ => none
  | .doLoad _ now => some now

/-- The clock values of a sequence are nondecreasing starting from `t`. -/
def timesOKb : Int → List StoreOp → Bool
  | _, [] => true
  | t, op :: rest =>
      match opTime op with
      | some t2 => decide (t ≤ t2) && timesOKb t2 rest
      | none => timesOKb t rest

/-- Clock value after running a sequence that started at `t`. -/
def endTime : Int → List StoreOp → Int
  | t, [] => t
  | t, op :: rest =>
      match opTime op with
      | some t2 => endTime t2 rest
      | none => endTime t rest

/-- Invariant of one mission entry: the mission key denotes (parses to) a
mission number in `[1, 5]`, every module key under it denotes a module
number in `[1, moduleCount mission]`, and every stored timestamp passes the
timestamp-validity predicate at the current time. -/
def entryInv (now : Int) (e : String × ModMap) : Bool :=
  match parseIntJS e.1 with
  | none => false
  | some m =>
      decide (1 ≤ m) && decide (m ≤ 5) &&
      e.2.all (fun q =>
        (match parseIntJS q.1 with
         | none => false
         | some n => decide (1 ≤ n) && decide (n ≤ modCount m)) &&
        isValidTimestamp now q.2)

/-- Key-pair and timestamp invariants of the whole record. -/
def recInvariant (now : Int) (p : ProgressRec) : Bool := p.all (entryInv now)

/-- No mission entry with zero module entries exists. -/
def noEmptyMission (p : ProgressRec) : Bool := p.all (fun e => !e.2.isEmpty)

/-- Whether a sequence contains an importProgress operation. -/
def hasImportOp (ops : List StoreOp) : Bool :=
  ops.any (fun op => match op with | .doImport _ _ => true | _ => false)

/-- Well-formedness of a record as a real JS object: unique mission keys
and unique module keys (JS objects cannot carry duplicate keys). -/
def WFRec (p : ProgressRec) : Prop :=
  (p.map Prod.fst).Nodup ∧ ∀ e ∈ p, (e.2.map Prod.fst).Nodup

/-- Timestamp property named by the import claim: a positive number, no
greater than now and no earlier than the floor date (spec wording, with a
non-strict floor comparison). -/
def tsOKspec (now : Int) : JSVal → Bool
  | .num t => decide (0 < t) && decide (t ≤ now) && decide (floorMs ≤ t)
  | _ => false

/-- Violation predicate written from the import claim's words: the payload
is not an object of objects, or some mission key does not denote a mission
number in `[1, 5]`, or some module key does not denote a module number in
range for its mission, or some timestamp fails `tsOKspec`. -/
def specImportViolation (now : Int) : JSVal → Bool
  | .obj fields =>
      fields.any (fun e =>
        match parseIntJS e.1 with
        | none => true
        | some m =>
            !(decide (1 ≤ m) && decide (m ≤ 5)) ||
            (match e.2 with
             | .obj mods =>
                 mods.any (fun q =>
                   (match parseIntJS q.1 with
                    | none => true
                    | some n => !(decide (1 ≤ n) && decide (n ≤ modCount m))) ||
                   !(tsOKspec now q.2))
             | _ => true))
  | _ => true

mutual
/-- A node is or contains a script/object/embed/iframe element. -/
def nodeHasDangerous : HNode → Bool
  | .text _ => false
  | .elem t _ c => dangTag t || listHasDangerous c

/-- A node list contains a dangerous element. -/
def listHasDangerous : List HNode → Bool
  | [] => false
  | x :: xs => nodeHasDangerous x || listHasDangerous xs
end

/-! Round trip of decimal printing through the `parseInt` model: the string
coercion of an integral JS number parses back to the same integer. -/

theorem natDigitsRevGo_congr :
    ∀ (f1 f2 n : Nat), n ≤ f1 → n ≤ f2 → natDigitsRevGo f1 n = natDigitsRevGo f2 n := by
  intro f1
  induction f1 with
  | zero =>
      intro f2 n h1 h2
      have : n = 0 := by omega
      subst this
      cases f2 with
      | zero => rfl
      | succ f => simp [natDigitsRevGo]
  | succ f ih =>
      intro f2 n h1 h2
      cases f2 with
      | zero =>
          have : n = 0 := by omega
          subst this
          simp [natDigitsRevGo]
      | succ g =>
          by_cases hn : n < 10
          · simp [natDigitsRevGo, hn]
          · have hd : n / 10 < n := Nat.div_lt_self (by omega) (by omega)
            simp only [natDigitsRevGo, if_neg hn]
            rw [ih g (n / 10) (by omega) (by omega)]

theorem natDigitsRev_unfold (n : Nat) :
    natDigitsRev n =
      if n < 10 then [digitChar n]
      else digitChar (n % 10) :: natDigitsRev (n / 10) := by
  unfold natDigitsRev
  cases n with
  | zero => simp [natDigitsRevGo]
  | succ k =>
      by_cases hn : k + 1 < 10
      · simp [natDigitsRevGo, hn]
      · have hd : (k + 1) / 10 < k + 1 := Nat.div_lt_self (by omega) (by omega)
        simp only [natDigitsRevGo, if_neg hn]
        rw [natDigitsRevGo_congr k ((k + 1) / 10) ((k + 1) / 10) (by omega) (le_refl _)]

section AssocOpsLemmas

variable {α : Type}

theorem jget_jset_self (l : List (String × α)) (k : String) (v : α) :
    jget (jset l k v) k = some v := by
  induction l with
  | nil => simp [jget, jset]
  | cons h t ih =>
      obtain ⟨k0, w⟩ := h
      by_cases hk : k0 = k
      · subst hk; simp [jget, jset]
      · simp [jget, jset, hk, ih]

theorem jget_jset_ne (l : List (String × α)) {k k2 : String} (v : α)
    (h : k ≠ k2) : jget (jset l k v) k2 = jget l k2 := by
  induction l with
  | nil => simp [jget, jset, h]
  | cons hd t ih =>
      obtain ⟨k0, w⟩ := hd
      by_cases hk : k0 = k
      · subst hk; simp [jget, jset, h]
      · simp only [jset, if_neg hk, jget]
        by_cases hk2 : k0 = k2
        · simp [hk2]
        · simp [hk2, ih]

theorem mem_jset {l : List (String × α)} {k : String} {v : α} {x : String × α}
    (h : x ∈ jset l k v) : x ∈ l ∨ x = (k, v) := by
  induction l with
  | nil =>
      simp only [jset, List.mem_singleton] at h
      exact Or.inr h
  | cons hd t ih =>
      obtain ⟨k0, w⟩ := hd
      by_cases hk : k0 = k
      · subst hk
        simp only [jset, if_true, eq_self_iff_true, List.mem_cons] at h
        rcases h with h | h
        · exact Or.inr h
        · exact Or.inl (List.mem_cons_of_mem _ h)
      · simp only [jset, if_neg hk, List.mem_cons] at h
        rcases h with h | h
        · exact Or.inl (by simp [h])
        · rcases ih h with h2 | h2
          · exact Or.inl (List.mem_cons_of_mem _ h2)
          · exact Or.inr h2

theorem mem_jerase {l : List (String × α)} {k : String} {x : String × α}
    (h : x ∈ jerase l k) : x ∈ l := by
  induction l with
  | nil => simp [jerase] at h
  | cons hd t ih =>
      obtain ⟨k0, w⟩ := hd
      by_cases hk : k0 = k
      · subst hk
        simp only [jerase, if_pos rfl] at h
        exact List.mem_cons_of_mem _ h
      · simp only [jerase, if_neg hk, List.mem_cons] at h
        rcases h with h | h
        · simp [h]
        · exact List.mem_cons_of_mem _ (ih h)

theorem jget_mem {l : List (String × α)} {k : String} {v : α}
    (h : jget l k = some v) : (k, v) ∈ l := by
  induction l with
  | nil => simp [jget] at h
  | cons hd t ih =>
      obtain ⟨k0, w⟩ := hd
      rw [jget] at h
      split at h
      · next heq =>
          injection h with h2
          subst h2
          subst heq
          exact List.mem_cons_self _ _
      · next hne => exact List.mem_cons_of_mem _ (ih h)

theorem jset_ne_nil (l : List (String × α)) (k : String) (v : α) :
    jset l k v ≠ [] := by
  cases l with
  | nil => simp [jset]
  | cons hd t =>
      obtain ⟨k0, w⟩ := hd
      by_cases hk : k0 = k <;> simp [jset, hk]

theorem mem_keys_jset {l : List (String × α)} {k a : String} {v : α} :
    a ∈ (jset l k v).map Prod.fst ↔ a ∈ l.map Prod.fst ∨ a = k := by
  induction l with
  | nil => simp [jset]
  | cons hd t ih =>
      obtain ⟨k0, w⟩ := hd
      by_cases hk : k0 = k
      · subst hk
        simp only [jset, if_true, eq_self_iff_true, List.map_cons, List.mem_cons]
        tauto
      · simp only [jset, if_neg hk, List.map_cons, List.mem_cons, ih]
        tauto

theorem nodup_keys_jset {l : List (String × α)} {k : String} {v : α}
    (h : (l.map Prod.fst).Nodup) : ((jset l k v).map Prod.fst).Nodup := by
  induction l with
  | nil => simp [jset]
  | cons hd t ih =>
      obtain ⟨k0, w⟩ := hd
      simp only [List.map_cons, List.nodup_cons] at h
      by_cases hk : k0 = k
      · subst hk
        simpa [jset, List.nodup_cons] using h
      · simp only [jset, if_neg hk, List.map_cons, List.nodup_cons]
        refine ⟨?_, ih h.2⟩
        intro hmem
        rcases mem_keys_jset.mp hmem with h2 | h2
        · exact h.1 h2
        · exact hk h2

theorem keys_jerase_sublist (l : List (String × α)) (k : String) :
    ((jerase l k).map Prod.fst).Sublist (l.map Prod.fst) := by
  induction l with
  | nil => simp [jerase]
  | cons hd t ih =>
      obtain ⟨k0, w⟩ := hd
      by_cases hk : k0 = k
      · subst hk
        simp only [jerase, if_true, eq_self_iff_true]
        exact List.sublist_cons_self _ _
      · simpa [jerase, hk] using ih.cons₂ k0

theorem jget_jerase_self {l : List (String × α)} {k : String}
    (h : (l.map Prod.fst).Nodup) : jget (jerase l k) k = none := by
  induction l with
  | nil => simp [jerase, jget]
  | cons hd t ih =>
      obtain ⟨k0, w⟩ := hd
      simp only [List.map_cons, List.nodup_cons] at h
      by_cases hk : k0 = k
      · subst hk
        simp only [jerase, if_pos rfl]
        cases hg : jget t k0 with
        | none => exact hg
        | some v => exact absurd (List.mem_map_of_mem Prod.fst (jget_mem hg)) h.1
      · simp [jerase, jget, hk, ih h.2]

theorem jget_jerase_ne {l : List (String × α)} {k k2 : String}
    (h : k ≠ k2) : jget (jerase l k) k2 = jget l k2 := by
  induction l with
  | nil => simp [jerase]
  | cons hd t ih =>
      obtain ⟨k0, w⟩ := hd
      by_cases hk : k0 = k
      · subst hk
        simp [jerase, jget, h]
      · simp only [jerase, if_neg hk, jget]
        by_cases hk2 : k0 = k2
        · simp [hk2]
        · simp [hk2, ih]

end AssocOpsLemmas

theorem digitChar_isDigit {d : Nat} (h : d < 10) : (digitChar d).isDigit = true := by
  interval_cases d <;> decide

theorem digitVal_digitChar {d : Nat} (h : d < 10) : digitVal (digitChar d) = d := by
  interval_cases d <;> decide

theorem natDigitsRev_ne_nil (n : Nat) : natDigitsRev n ≠ [] := by
  rw [natDigitsRev_unfold]
  split <;> simp

theorem natDigitsRev_all_digits (n : Nat) :
    ∀ c ∈ natDigitsRev n, c.isDigit = true := by
  induction n using Nat.strong_induction_on with
  | _ n ih =>
      rw [natDigitsRev_unfold]
      split
      · next h =>
          intro c hc
          simp only [List.mem_singleton] at hc
          exact hc ▸ digitChar_isDigit h
      · next h =>
          intro c hc
          simp only [List.mem_cons] at hc
          rcases hc with rfl | hc
          · exact digitChar_isDigit (by omega)
          · exact ih (n / 10) (Nat.div_lt_self (by omega) (by omega)) c hc

theorem digitsToNat_append (xs : List Char) (c : Char) :
    digitsToNat (xs ++ [c]) = 10 * digitsToNat xs + digitVal c := by
  simp [digitsToNat, List.foldl_append]

theorem digitsToNat_reverse_natDigitsRev (n : Nat) :
    digitsToNat (natDigitsRev n).reverse = n := by
  induction n using Nat.strong_induction_on with
  | _ n ih =>
      rw [natDigitsRev_unfold]
      split
      · next h =>
          simp [digitsToNat, digitVal_digitChar h]
      · next h =>
          rw [List.reverse_cons, digitsToNat_append,
            ih (n / 10) (Nat.div_lt_self (by omega) (by omega)),
            digitVal_digitChar (Nat.mod_lt n (by omega))]
          omega

theorem takeWhile_of_all {p : Char → Bool} {l : List Char}
    (h : ∀ c ∈ l, p c = true) : l.takeWhile p = l := by
  induction l with
  | nil => rfl
  | cons c t ih =>
      have h1 := h c (List.mem_cons_self _ _)
      simp [List.takeWhile_cons, h1, ih (fun x hx => h x (List.mem_cons_of_mem _ hx))]

theorem isDigit_not_ws {c : Char} (h : c.isDigit = true) : jsWhitespace c = false := by
  cases hw : jsWhitespace c
  · rfl
  · exfalso
    simp only [jsWhitespace, Bool.or_eq_true, decide_eq_true_eq] at hw
    rcases hw with ((rfl | rfl) | rfl) | rfl <;> simp [Char.isDigit] at h

theorem isDigit_not_sign {c : Char} (h : c.isDigit = true) : c ≠ '+' ∧ c ≠ '-' := by
  constructor <;> rintro rfl <;> simp [Char.isDigit] at h

theorem isDigit_not_hexMark {c : Char} (h : c.isDigit = true) : ¬(c = 'x' ∨ c = 'X') := by
  rintro (rfl | rfl) <;> simp [Char.isDigit] at h

theorem decimalPrefix_all_digits {l : List Char} (hne : l ≠ [])
    (h : ∀ c ∈ l, c.isDigit = true) : decimalPrefix l = some (digitsToNat l) := by
  unfold decimalPrefix
  rw [takeWhile_of_all h]
  simp [hne]

theorem parseUnsigned_all_digits {l : List Char} (hne : l ≠ [])
    (h : ∀ c ∈ l, c.isDigit = true) : parseUnsigned l = some (digitsToNat l) := by
  match l, hne with
  | [c], _ => exact decimalPrefix_all_digits (by simp) h
  | c0 :: c1 :: r, _ =>
      rw [parseUnsigned]
      rw [if_neg ?hcond]
      · exact decimalPrefix_all_digits (by simp) h
      · rintro ⟨h0, h1⟩
        exact isDigit_not_hexMark (h c1 (by simp)) h1

theorem parseIntCore_all_digits {l : List Char} (hne : l ≠ [])
    (h : ∀ c ∈ l, c.isDigit = true) :
    parseIntCore l = some (Int.ofNat (digitsToNat l)) := by
  match l, hne with
  | c :: r, _ =>
      have hc : c.isDigit = true := h c (List.mem_cons_self _ _)
      have hdrop : (c :: r).dropWhile jsWhitespace = c :: r := by
        simp [List.dropWhile_cons, isDigit_not_ws hc]
      unfold parseIntCore
      simp only [hdrop]
      rw [if_neg ?h1, if_neg ?h2, parseUnsigned_all_digits (by simp) h]
      case h1 => exact (isDigit_not_sign hc).1
      case h2 => exact (isDigit_not_sign hc).2
      rfl

theorem parseIntCore_neg_digits {l : List Char} (hne : l ≠ [])
    (h : ∀ c ∈ l, c.isDigit = true) :
    parseIntCore ('-' :: l) = some (-(Int.ofNat (digitsToNat l))) := by
  have hw : jsWhitespace ('-') = false := by decide
  have hdrop : ('-' :: l).dropWhile jsWhitespace = '-' :: l := by
    simp [List.dropWhile_cons, hw]
  unfold parseIntCore
  simp only [hdrop]
  rw [if_pos trivial, parseUnsigned_all_digits hne h]
  rfl

theorem parseIntJS_intDecStr (i : Int) : parseIntJS (intDecStr i) = some i := by
  by_cases hi : i < 0
  · have hdata : (intDecStr i).data = '-' :: (natDigitsRev (-i).toNat).reverse := by
      simp [intDecStr, if_pos hi]
    have hdigits : ∀ c ∈ (natDigitsRev (-i).toNat).reverse, c.isDigit = true := by
      intro c hc
      exact natDigitsRev_all_digits _ c (List.mem_reverse.mp hc)
    unfold parseIntJS
    rw [hdata, parseIntCore_neg_digits (by simp [natDigitsRev_ne_nil]) hdigits,
      digitsToNat_reverse_natDigitsRev]
    congr 1
    rw [Int.ofNat_eq_coe]
    omega
  · have hdata : (intDecStr i).data = (natDigitsRev i.toNat).reverse := by
      simp [intDecStr, if_neg hi, natToStr]
    unfold parseIntJS
    rw [hdata, parseIntCore_all_digits (by simp [natDigitsRev_ne_nil])
      (fun c hc => natDigitsRev_all_digits _ c (List.mem_reverse.mp hc)),
      digitsToNat_reverse_natDigitsRev]
    congr 1
    rw [Int.ofNat_eq_coe]
    omega

theorem intToStr_eq_intDecStr {i : Int}
    (h1 : -1000000000000000000000 < i) (h2 : i < 1000000000000000000000) :
    intToStr i = intDecStr i := by
  unfold intToStr intDecStr jsMagChars natToStr
  by_cases hi : i < 0
  · have hlt : (-i).toNat < 1000000000000000000000 := by omega
    simp [hi, hlt]
  · have hlt : i.toNat < 1000000000000000000000 := by omega
    simp [hi, hlt]

theorem parseIntJS_intToStr {i : Int}
    (h1 : -1000000000000000000000 < i) (h2 : i < 1000000000000000000000) :
    parseIntJS (intToStr i) = some i := by
  rw [intToStr_eq_intDecStr h1 h2]
  exact parseIntJS_intDecStr i

theorem parseIntJS_jsToStr_num {i : Int}
    (h1 : -1000000000000000000000 < i) (h2 : i < 1000000000000000000000) :
    parseIntJS (jsToStr (.num i)) = some i :=
  parseIntJS_intToStr h1 h2

/-! Helper lemmas about the validators on integral arguments. -/

theorem modulesPerMission_eq_some {m : Int} (h1 : 1 ≤ m) (h2 : m ≤ 5) :
    modulesPerMission m = some (modCount m) := by
  interval_cases m <;> rfl

theorem modCount_pos {m : Int} (h1 : 1 ≤ m) (h2 : m ≤ 5) : 1 ≤ modCount m := by
  interval_cases m <;> decide

theorem modCount_le_four {m : Int} (h1 : 1 ≤ m) (h2 : m ≤ 5) : modCount m ≤ 4 := by
  interval_cases m <;> decide

theorem isValidMission_num {m : Int}
    (hm1 : -1000000000000000000000 < m) (hm2 : m < 1000000000000000000000) :
    isValidMission (.num m) = (decide (1 ≤ m) && decide (m ≤ 5)) := by
  unfold isValidMission
  rw [show jsToStr (JSVal.num m) = intToStr m from rfl, parseIntJS_intToStr hm1 hm2]
  rfl

theorem isValidMissionModule_num {m n : Int}
    (hm1 : -1000000000000000000000 < m) (hm2 : m < 1000000000000000000000)
    (hn1 : -1000000000000000000000 < n) (hn2 : n < 1000000000000000000000) :
    isValidMissionModule (.num m) (.num n) =
      (decide (1 ≤ m) && decide (m ≤ 5) && decide (1 ≤ n) &&
        decide (n ≤ modCount m)) := by
  unfold isValidMissionModule
  rw [isValidMission_num hm1 hm2,
    show jsToStr (JSVal.num m) = intToStr m from rfl,
    show jsToStr (JSVal.num n) = intToStr n from rfl,
    parseIntJS_intToStr hm1 hm2, parseIntJS_intToStr hn1 hn2]
  by_cases hm : 1 ≤ m ∧ m ≤ 5
  · simp [hm.1, hm.2, modulesPerMission_eq_some hm.1 hm.2]
  · have : ¬(1 ≤ m) ∨ ¬(m ≤ 5) := by tauto
    rcases this with h | h <;> simp [h]

theorem mem_moduleIdxList {mx n : Int} :
    n ∈ moduleIdxList mx ↔ 1 ≤ n ∧ n ≤ mx := by
  constructor
  · intro h
    obtain ⟨i, hi, hin⟩ := List.mem_map.mp h
    rw [List.mem_range] at hi
    rw [Int.ofNat_eq_coe] at hin
    omega
  · intro h
    apply List.mem_map.mpr
    refine ⟨(n - 1).toNat, ?_, ?_⟩
    · rw [List.mem_range]
      omega
    · rw [Int.ofNat_eq_coe]
      omega

theorem mpmKey_num {m : Int} (h1 : 1 ≤ m) (h2 : m ≤ 5) :
    mpmKey (jsToStr (.num m)) = some (modCount m) := by
  interval_cases m <;> decide

/-! Presence of dangerous elements in a fragment, for the sanitizer
claims. -/

mutual
theorem stripDangerous_ok (x : HNode) :
    ∀ y, stripDangerous x = some y → nodeHasDangerous y = false := by
  match x with
  | .text s =>
      intro y hy
      simp only [stripDangerous, Option.some.injEq] at hy
      subst hy
      rfl
  | .elem t a c =>
      intro y hy
      simp only [stripDangerous] at hy
      by_cases ht : dangTag t = true
      · simp [ht] at hy
      · rw [if_neg ht] at hy
        simp only [Option.some.injEq] at hy
        subst hy
        simp only [nodeHasDangerous, Bool.or_eq_false_iff]
        exact ⟨by simpa using ht, stripDangerousList_ok c⟩

theorem stripDangerousList_ok (l : List HNode) :
    listHasDangerous (stripDangerousList l) = false := by
  match l with
  | [] => rfl
  | x :: xs =>
      rw [stripDangerousList]
      cases hx : stripDangerous x with
      | none => exact stripDangerousList_ok xs
      | some y =>
          simp only [listHasDangerous, Bool.or_eq_false_iff]
          exact ⟨stripDangerous_ok x y hx, stripDangerousList_ok xs⟩
end

mutual
theorem removeOnAttrs_dangerous (x : HNode) :
    nodeHasDangerous (removeOnAttrs x) = nodeHasDangerous x := by
  match x with
  | .text s => rfl
  | .elem t a c =>
      simp only [removeOnAttrs, nodeHasDangerous, removeOnAttrsList_dangerous c]

theorem removeOnAttrsList_dangerous (l : List HNode) :
    listHasDangerous (removeOnAttrsList l) = listHasDangerous l := by
  match l with
  | [] => rfl
  | x :: xs =>
      simp only [removeOnAttrsList, listHasDangerous,
        removeOnAttrs_dangerous x, removeOnAttrsList_dangerous xs]
end

/-- C2: the returned fragment never contains a script, object, embed or
iframe element; but the claim that no element of the result carries an
attribute whose name begins with the event-handler marker fails when one
element carries several such attributes, because the removal loop iterates
the live attribute collection while deleting from it. The second and third
conjuncts evaluate the code on such an element: `onclick` is removed, yet
`onerror` — an event-handler attribute — survives in the output. -/
theorem sanitizeHTML_strips_elements_but_keeps_second_handler :
    (∀ fragment : List HNode, listHasDangerous (sanitizeHTML fragment) = false) ∧
    sanitizeHTML [HNode.elem "img" [("onclick", "a"), ("onerror", "b")] []] =
      [HNode.elem "img" [("onerror", "b")] []] ∧
    isOnName "onerror" = true := by
  refine ⟨?_, rfl, rfl⟩
  intro fragment
  rw [sanitizeHTML, removeOnAttrsList_dangerous]
  exact stripDangerousList_ok fragment

/-- C9: prev/next module navigation moves within a mission, crosses to the
previous mission's last module on underflow and to the next mission's
first module on overflow, and leaves the route unchanged (returns no
route) on a step before mission 1 module 1 or past mission 5's last
module. -/
theorem navigateModule_spec (m n : Int) (hm1 : 1 ≤ m) (hm5 : m ≤ 5)
    (hn1 : 1 ≤ n) (hn2 : n ≤ modCount m) :
    (n < modCount m → navigateModule m n 1 = some (m, n + 1)) ∧
    (n = modCount m → m < 5 → navigateModule m n 1 = some (m + 1, 1)) ∧
    (m = 5 → n = modCount 5 → navigateModule m n 1 = none) ∧
    (1 < n → navigateModule m n (-1) = some (m, n - 1)) ∧
    (n = 1 → 1 < m → navigateModule m n (-1) = some (m - 1, modCount (m - 1))) ∧
    (m = 1 → n = 1 → navigateModule m n (-1) = none) := by
  interval_cases m <;>
    (norm_num [modCount, modulesPerMission] at hn2) <;>
    interval_cases n <;>
    refine ⟨fun h1 => ?_, fun h1 h2 => ?_, fun h1 h2 => ?_, fun h1 => ?_,
      fun h1 h2 => ?_, fun h1 h2 => ?_⟩ <;>
    first
      | rfl
      | (exfalso; norm_num [modCount, modulesPerMission] at h1 h2)
      | (exfalso; norm_num [modCount, modulesPerMission] at h1)

/-- C9 witness: from mission 2 module 3 the next step is mission 3
module 1, and from mission 1 module 1 the prev step is a no-op. -/
theorem navigateModule_spec_witness :
    navigateModule 2 3 1 = some (3, 1) ∧ navigateModule 1 1 (-1) = none := by
  have h2 := navigateModule_spec 2 3 (by decide) (by decide) (by decide) (by decide)
  have h1 := navigateModule_spec 1 1 (by decide) (by decide) (by decide) (by decide)
  exact ⟨h2.2.1 (by decide) (by decide), h1.2.2.2.2.2 rfl rfl⟩

/-- C1 counterexample: on the empty store, the full result of
exportProgress is not accepted by importProgress — the export wraps the
record in an envelope with `data`, `exportedAt` and `version` fields, and
the import path validates the envelope itself as a record, failing. -/
theorem exportProgress_result_rejected_by_import :
    importProgress [] (exportProgress [] 1700000000000) 1700000000000 =
      (false, []) := rfl

/-- C1 amended: on the empty store, the `data` field of the export is what
round-trips: importProgress accepts it (returns true) and reproduces an
equal (empty) record, at any export and import times. -/
theorem exportProgress_data_roundtrip (now now2 : Int) :
    jfield (exportProgress [] now) "data" = some (recToJSVal []) ∧
    importProgress [] (recToJSVal []) now2 = (true, []) :=
  ⟨rfl, rfl⟩

/-! Unfolding lemmas for the store operations under a validity verdict. -/

theorem setModuleCompletion_true_eq (p : ProgressRec) (mv nv c : JSVal) (now : Int)
    (h : isValidMissionModule mv nv = true) (hc : jsTruthy c = true) :
    setModuleCompletion p mv nv c now =
      (true, jset p (jsToStr mv)
        (jset ((jget p (jsToStr mv)).getD []) (jsToStr nv) (.num now))) := by
  simp [setModuleCompletion, h, hc]

theorem setModuleCompletion_false_eq (p : ProgressRec) (mv nv c : JSVal) (now : Int)
    (h : isValidMissionModule mv nv = true) (hc : jsTruthy c = false) :
    setModuleCompletion p mv nv c now =
      match jget p (jsToStr mv) with
      | none => (true, p)
      | some mods =>
          let mods2 := jerase mods (jsToStr nv)
          if mods2.isEmpty then (true, jerase p (jsToStr mv))
          else (true, jset p (jsToStr mv) mods2) := by
  simp [setModuleCompletion, h, hc]

theorem isModuleComplete_eq (p : ProgressRec) (mv nv : JSVal)
    (h : isValidMissionModule mv nv = true) :
    isModuleComplete p mv nv =
      (match jget p (jsToStr mv) with
       | none => false
       | some mods =>
           match jget mods (jsToStr nv) with
           | none => false
           | some tv => jsTruthy tv) := by
  simp [isModuleComplete, h]

/-- C6 counterexample: mission `10^21` is far outside the valid bounds,
yet the program accepts it — the JS string coercion of `10^21` is the
exponent form `1e+21`, whose `parseInt` is 1, so `isValidMissionModule`
passes, setModuleCompletion returns true and mutates the record (under
the key `1e+21`), and isModuleComplete afterwards returns true for the
same out-of-bounds pair. -/
theorem setModuleCompletion_huge_mission_accepted :
    ¬(1 ≤ (1000000000000000000000 : Int) ∧
        (1000000000000000000000 : Int) ≤ 5 ∧
        1 ≤ (1 : Int) ∧ (1 : Int) ≤ modCount 1000000000000000000000) ∧
    setModuleCompletion [] (.num 1000000000000000000000) (.num 1)
        (.jbool true) 1700000000000 =
      (true, [("1e+21", [("1", .num 1700000000000)])]) ∧
    isModuleComplete [("1e+21", [("1", JSVal.num 1700000000000)])]
      (.num 1000000000000000000000) (.num 1) = true :=
  ⟨by decide, rfl, rfl⟩

/-- C6 amended: for every (mission, module) pair outside the valid bounds
whose coordinates are below `10^21` in magnitude — the range where the JS
string coercion prints a plain decimal numeral — setModuleCompletion
returns false and leaves the progress record unchanged, and
isModuleComplete returns false, for every completion argument and clock
value. From `10^21` on, the coercion switches to exponent notation and
`parseInt` reads only the leading digit, so the program can accept an
out-of-bounds pair. -/
theorem out_of_bounds_rejected (p : ProgressRec) (m n : Int) (c : JSVal)
    (now : Int)
    (hm1 : -1000000000000000000000 < m) (hm2 : m < 1000000000000000000000)
    (hn1 : -1000000000000000000000 < n) (hn2 : n < 1000000000000000000000)
    (h : ¬(1 ≤ m ∧ m ≤ 5 ∧ 1 ≤ n ∧ n ≤ modCount m)) :
    setModuleCompletion p (.num m) (.num n) c now = (false, p) ∧
    isModuleComplete p (.num m) (.num n) = false := by
  have hv : isValidMissionModule (.num m) (.num n) = false := by
    rw [isValidMissionModule_num hm1 hm2 hn1 hn2, Bool.eq_false_iff]
    intro habs
    simp only [Bool.and_eq_true, decide_eq_true_eq] at habs
    exact h ⟨habs.1.1.1, habs.1.1.2, habs.1.2, habs.2⟩
  constructor
  · simp [setModuleCompletion, hv]
  · simp [isModuleComplete, hv]

/-- C6 witness: mission 1 module 9 is out of bounds and in the
plain-decimal range; setModuleCompletion returns false and leaves the
empty record unchanged, and isModuleComplete returns false. -/
theorem out_of_bounds_rejected_witness :
    ¬(1 ≤ (1 : Int) ∧ (1 : Int) ≤ 5 ∧ 1 ≤ (9 : Int) ∧ (9 : Int) ≤ modCount 1) ∧
    (setModuleCompletion [] (.num 1) (.num 9) (.jbool true) 1700000000000 =
        (false, []) ∧
      isModuleComplete [] (.num 1) (.num 9) = false) :=
  ⟨by decide,
    out_of_bounds_rejected [] 1 9 (.jbool true) 1700000000000 (by decide)
      (by decide) (by decide) (by decide) (by decide)⟩

/-- C7: for every well-formed store state and every mission m in 1..5 and
module n in 1..moduleCount[m], completing (m, n) makes isModuleComplete
true (at any nonzero clock value, Date.now() never being zero), and then
un-completing (m, n) makes it false. -/
theorem setCompletion_then_isModuleComplete (p : ProgressRec)
    (m n now now2 : Int) (hwf : WFRec p) (hm1 : 1 ≤ m) (hm5 : m ≤ 5)
    (hn1 : 1 ≤ n) (hn2 : n ≤ modCount m) (hnow : now ≠ 0) :
    isModuleComplete (setModuleCompletion p (.num m) (.num n) (.jbool true) now).2
      (.num m) (.num n) = true ∧
    isModuleComplete (setModuleCompletion p (.num m) (.num n) (.jbool false) now2).2
      (.num m) (.num n) = false := by
  have hmc4 : modCount m ≤ 4 := modCount_le_four hm1 hm5
  have hv : isValidMissionModule (.num m) (.num n) = true := by
    rw [isValidMissionModule_num (by omega) (by omega) (by omega) (by omega)]
    simp [hm1, hm5, hn1, hn2]
  constructor
  · rw [setModuleCompletion_true_eq p (.num m) (.num n) (.jbool true) now hv rfl,
      isModuleComplete_eq _ _ _ hv]
    simp only [jget_jset_self]
    simpa [jsTruthy] using hnow
  · cases hg : jget p (jsToStr (JSVal.num m)) with
    | none =>
        have hs : (setModuleCompletion p (.num m) (.num n) (.jbool false) now2).2 = p := by
          simp [setModuleCompletion, jsTruthy, hv, hg]
        rw [hs, isModuleComplete_eq _ _ _ hv, hg]
    | some mods =>
        by_cases he : (jerase mods (jsToStr (JSVal.num n))).isEmpty
        · have hs : (setModuleCompletion p (.num m) (.num n) (.jbool false) now2).2 =
              jerase p (jsToStr (JSVal.num m)) := by
            simp [setModuleCompletion, jsTruthy, hv, hg, he]
          rw [hs, isModuleComplete_eq _ _ _ hv, jget_jerase_self hwf.1]
        · have hs : (setModuleCompletion p (.num m) (.num n) (.jbool false) now2).2 =
              jset p (jsToStr (JSVal.num m)) (jerase mods (jsToStr (JSVal.num n))) := by
            simp [setModuleCompletion, jsTruthy, hv, hg, he]
          rw [hs, isModuleComplete_eq _ _ _ hv]
          simp only [jget_jset_self]
          rw [jget_jerase_self (hwf.2 _ (jget_mem hg))]

/-- C7 witness: from the empty (well-formed) store, completing mission 1
module 1 makes it complete, and un-completing makes it incomplete. -/
theorem setCompletion_then_isModuleComplete_witness :
    WFRec ([] : ProgressRec) ∧
    (isModuleComplete
        (setModuleCompletion [] (.num 1) (.num 1) (.jbool true) 1700000000000).2
        (.num 1) (.num 1) = true ∧
      isModuleComplete
        (setModuleCompletion [] (.num 1) (.num 1) (.jbool false) 1700000000001).2
        (.num 1) (.num 1) = false) :=
  ⟨⟨by simp, by simp⟩,
    setCompletion_then_isModuleComplete [] 1 1 1700000000000 1700000000001
      ⟨by simp, by simp⟩ (by decide) (by decide) (by decide) (by decide)
      (by decide)⟩

theorem mem_missionIdxList {m : Int} (h : m ∈ missionIdxList) :
    1 ≤ m ∧ m ≤ 5 := by
  have hml : missionIdxList = [1, 2, 3, 4, 5] := rfl
  rw [hml] at h
  simp only [List.mem_cons, List.not_mem_nil, or_false] at h
  rcases h with rfl | rfl | rfl | rfl | rfl <;> exact ⟨by decide, by decide⟩

theorem mem_curriculumSlots {q : Int × Int} (h : q ∈ curriculumSlots) :
    1 ≤ q.1 ∧ q.1 ≤ 5 ∧ 1 ≤ q.2 ∧ q.2 ≤ modCount q.1 := by
  unfold curriculumSlots at h
  rw [List.mem_flatMap] at h
  obtain ⟨m, hm, hq⟩ := h
  rw [List.mem_map] at hq
  obtain ⟨n, hn, rfl⟩ := hq
  obtain ⟨hm1, hm5⟩ := mem_missionIdxList hm
  obtain ⟨hn1, hn2⟩ := mem_moduleIdxList.mp hn
  exact ⟨hm1, hm5, hn1, hn2⟩

/-- C8: for every mission m in 1..5, isMissionComplete is true exactly when
every module slot 1..moduleCount[m] of that mission is complete; with only
modules 1, 2, 3 of mission 4 completed it is false, and additionally
completing module 4 makes it true. -/
theorem isMissionComplete_iff_all (p : ProgressRec) (m : Int)
    (hm1 : 1 ≤ m) (hm5 : m ≤ 5) :
    (isMissionComplete p (.num m) = true ↔
      ∀ n : Int, 1 ≤ n → n ≤ modCount m →
        isModuleComplete p (.num m) (.num n) = true) ∧
    isMissionComplete
      (runOps [] [.setCompletion (.num 4) (.num 1) (.jbool true) 1700000000000,
        .setCompletion (.num 4) (.num 2) (.jbool true) 1700000000000,
        .setCompletion (.num 4) (.num 3) (.jbool true) 1700000000000])
      (.num 4) = false ∧
    isMissionComplete
      (runOps [] [.setCompletion (.num 4) (.num 1) (.jbool true) 1700000000000,
        .setCompletion (.num 4) (.num 2) (.jbool true) 1700000000000,
        .setCompletion (.num 4) (.num 3) (.jbool true) 1700000000000,
        .setCompletion (.num 4) (.num 4) (.jbool true) 1700000000000])
      (.num 4) = true := by
  have hv : isValidMission (.num m) = true := by
    rw [isValidMission_num (by omega) (by omega)]
    simp [hm1, hm5]
  refine ⟨?_, by rfl, by rfl⟩
  have key : isMissionComplete p (.num m) =
      (moduleIdxList (modCount m)).all
        (fun n => isModuleComplete p (.num m) (.num n)) := by
    simp [isMissionComplete, hv, mpmKey_num hm1 hm5]
  rw [key, List.all_eq_true]
  constructor
  · intro h n h1 h2
    exact h n (mem_moduleIdxList.mpr ⟨h1, h2⟩)
  · intro h n hn
    obtain ⟨h1, h2⟩ := mem_moduleIdxList.mp hn
    exact h n h1 h2

/-- C8 witness: for mission 1 on the empty store, the equivalence yields
that the mission is not complete, since module 1 is incomplete. -/
theorem isMissionComplete_iff_all_witness :
    isMissionComplete ([] : ProgressRec) (.num 1) ≠ true := by
  intro h
  have := (isMissionComplete_iff_all [] 1 (by decide) (by decide)).1.mp h 1
    (by decide) (by decide)
  exact absurd this (by decide)

/-- C10: getNextRecommendedModule returns none exactly when every one of
the 16 curriculum slots is complete; whenever it returns a pair, that pair
is within the valid bounds and incomplete. -/
theorem getNextRecommendedModule_spec (p : ProgressRec) :
    (getNextRecommendedModule p = none ↔
      ∀ q ∈ curriculumSlots, isModuleComplete p (.num q.1) (.num q.2) = true) ∧
    curriculumSlots.length = 16 ∧
    (∀ m n : Int, getNextRecommendedModule p = some (m, n) →
      (1 ≤ m ∧ m ≤ 5 ∧ 1 ≤ n ∧ n ≤ modCount m) ∧
      isModuleComplete p (.num m) (.num n) = false) := by
  refine ⟨?_, rfl, ?_⟩
  · unfold getNextRecommendedModule
    rw [List.find?_eq_none]
    constructor
    · intro h q hq
      simpa using h q hq
    · intro h q hq
      simpa using h q hq
  · intro m n hfind
    unfold getNextRecommendedModule at hfind
    have hmem := List.mem_of_find?_eq_some hfind
    have hpred := List.find?_some hfind
    refine ⟨mem_curriculumSlots hmem, ?_⟩
    simpa using hpred

/-- C10 witness: on the empty store, the recommendation is mission 1
module 1, which is within bounds and incomplete. -/
theorem getNextRecommendedModule_spec_witness :
    (1 ≤ (1 : Int) ∧ (1 : Int) ≤ 5 ∧ 1 ≤ (1 : Int) ∧ (1 : Int) ≤ modCount 1) ∧
    isModuleComplete [] (.num 1) (.num 1) = false :=
  (getNextRecommendedModule_spec []).2.2 1 1 rfl

theorem valid_no_violation {now : Int} {payload : JSVal}
    (h : isValidProgressData now payload = true) :
    specImportViolation now payload = false := by
  cases payload with
  | num n => simp [isValidProgressData] at h
  | str s => simp [isValidProgressData] at h
  | jbool b => simp [isValidProgressData] at h
  | jnull => simp [isValidProgressData] at h
  | obj fields =>
      simp only [isValidProgressData, List.all_eq_true] at h
      simp only [specImportViolation]
      rw [Bool.eq_false_iff]
      intro hany
      rw [List.any_eq_true] at hany
      obtain ⟨e, he, hbad⟩ := hany
      have hgood := h e he
      cases hp : parseIntJS e.1 with
      | none => simp [validMissionEntry, hp] at hgood
      | some m =>
          simp only [validMissionEntry, hp] at hgood
          simp only [hp] at hbad
          cases hobj : e.2 with
          | num t => rw [hobj] at hgood; simp at hgood
          | str s => rw [hobj] at hgood; simp at hgood
          | jbool b => rw [hobj] at hgood; simp at hgood
          | jnull => rw [hobj] at hgood; simp at hgood
          | obj mods =>
              rw [hobj] at hgood hbad
              simp only [Bool.and_eq_true, decide_eq_true_eq] at hgood
              have hm1 : 1 ≤ m := by tauto
              have hm5 : m ≤ 5 := by
                have hm5t : m ≤ totalMissions := by tauto
                simpa [totalMissions] using hm5t
              have hall : mods.all
                  (validModuleEntry now ((modulesPerMission m).getD 0)) = true := by
                tauto
              rw [Bool.or_eq_true] at hbad
              rcases hbad with hbad | hbad
              · simp [hm1, hm5] at hbad
              · rw [List.any_eq_true] at hbad
                obtain ⟨q, hq, hqbad⟩ := hbad
                have hqgood := List.all_eq_true.mp hall q hq
                cases hqp : parseIntJS q.1 with
                | none => simp [validModuleEntry, hqp] at hqgood
                | some n =>
                    simp only [validModuleEntry, hqp] at hqgood
                    simp only [hqp] at hqbad
                    simp only [Bool.and_eq_true, decide_eq_true_eq] at hqgood
                    have hn1 : 1 ≤ n := by tauto
                    have hnmax : n ≤ (modulesPerMission m).getD 0 := by tauto
                    have hts : isValidTimestamp now q.2 = true := by tauto
                    rw [Bool.or_eq_true] at hqbad
                    rcases hqbad with hqbad | hqbad
                    · have hmc : n ≤ modCount m := by simpa [modCount] using hnmax
                      simp [hn1, hmc] at hqbad
                    · cases hv : q.2 with
                      | num t =>
                          rw [hv] at hts hqbad
                          simp only [isValidTimestamp, Bool.and_eq_true,
                            decide_eq_true_eq] at hts
                          have h1 : 0 < t := by tauto
                          have h2 : t ≤ now := by tauto
                          have h3 : floorMs < t := by tauto
                          simp [tsOKspec, h1, h2, le_of_lt h3] at hqbad
                      | str s => rw [hv] at hts; simp [isValidTimestamp] at hts
                      | jbool b => rw [hv] at hts; simp [isValidTimestamp] at hts
                      | jnull => rw [hv] at hts; simp [isValidTimestamp] at hts
                      | obj l => rw [hv] at hts; simp [isValidTimestamp] at hts

/-- C5: for every candidate payload, store state and clock value,
the importProgress call rejects the entire payload — returns false, the
stored record unchanged — whenever the payload carries any violation named
by the claim: a non-object shape, a mission key not denoting a mission
number in [1, 5], a module key not denoting a module number in range, or a
timestamp that is not a positive number no greater than now and no earlier
than the floor date. -/
theorem importProgress_rejects_on_violation (p : ProgressRec) (payload : JSVal)
    (now : Int) (h : specImportViolation now payload = true) :
    importProgress p payload now = (false, p) := by
  have hval : isValidProgressData now payload = false := by
    cases hv : isValidProgressData now payload
    · rfl
    · exact absurd (valid_no_violation hv) (by simp [h])
  simp [importProgress, hval]

/-- C5 witness: a payload with mission key 6 is a violation; import
returns false and leaves a nonempty store unchanged. -/
theorem importProgress_rejects_on_violation_witness :
    specImportViolation 1700000000000 (.obj [("6", .obj [])]) = true ∧
    importProgress [("1", [("1", JSVal.num 1690000000000)])]
        (.obj [("6", .obj [])]) 1700000000000 =
      (false, [("1", [("1", JSVal.num 1690000000000)])]) :=
  ⟨rfl, importProgress_rejects_on_violation _ _ _ rfl⟩

/-- C3 counterexample: a persisted record in which mission 1 has one
module entry with a future timestamp next to a perfectly valid sibling
entry is wiped entirely by the load path: the result is the empty record,
so the valid sibling (module 2, shown valid by the first conjunct) is lost
instead of being preserved. The bootstrap override only checks that
timestamps are positive numbers, so the future entry reaches the
tracker's all-or-nothing load validation, which resets everything. -/
theorem load_future_timestamp_wipes_valid_siblings :
    validModuleEntry 1700000000000 3 ("2", .num 1690000000000) = true ∧
    initStore (some (.obj [("1", .obj [("1", .num 1800000000000),
        ("2", .num 1690000000000)])])) 1700000000000 = [] :=
  ⟨rfl, rfl⟩

/-- C3 amended: per-entry recovery on load holds for out-of-range module
keys and for non-positive timestamps — only the bad entry is dropped and
valid siblings in the same mission survive — but an entry whose timestamp
is a positive number in the future or not after the floor date causes the
whole record to be reset to empty, valid siblings included. -/
theorem load_per_entry_recovery (now t1 t2 tb b : Int)
    (h1a : floorMs < t1) (h1b : t1 ≤ now)
    (h2a : floorMs < t2) (h2b : t2 ≤ now)
    (hb : ¬(1 ≤ b ∧ b ≤ 3)) :
    initStore (some (.obj [("1", .obj [(intDecStr b, .num tb), ("1", .num t1)]),
        ("2", .obj [("1", .num t2)])])) now =
      [("1", [("1", .num t1)]), ("2", [("1", .num t2)])] ∧
    (∀ tneg : Int, tneg ≤ 0 →
      initStore (some (.obj [("1", .obj [("2", .num tneg), ("1", .num t1)])]))
        now = [("1", [("1", .num t1)])]) ∧
    (∀ tf : Int, now < tf →
      initStore (some (.obj [("1", .obj [("1", .num tf), ("2", .num t1)])]))
        now = []) ∧
    (∀ tp : Int, 0 < tp → tp ≤ floorMs →
      initStore (some (.obj [("1", .obj [("1", .num tp), ("2", .num t1)])]))
        now = []) := by
  have hbskip : b < 1 ∨ b > 3 := by omega
  have hfpos : (0 : Int) < floorMs := by decide
  have ht1pos : t1 > 0 := by omega
  have ht2pos : t2 > 0 := by omega
  have e1 : parseIntJS "1" = some 1 := rfl
  have e2 : parseIntJS "2" = some 2 := rfl
  have eb : parseIntJS (intDecStr b) = some b := parseIntJS_intDecStr b
  have i1 : intToStr 1 = "1" := rfl
  have i2 : intToStr 2 = "2" := rfl
  refine ⟨?_, ?_, ?_, ?_⟩
  · have hA : appValidate (.obj [("1", .obj [(intDecStr b, .num tb),
        ("1", .num t1)]), ("2", .obj [("1", .num t2)])]) =
        [("1", [("1", JSVal.num t1)]), ("2", [("1", JSVal.num t2)])] := by
      simp [appValidate, appValidateModules, e1, e2, eb, i1, i2, hbskip,
        ht1pos, ht2pos, jset]
    have hV : isValidProgressData now
        (recToJSVal [("1", [("1", JSVal.num t1)]),
          ("2", [("1", JSVal.num t2)])]) = true := by
      simp [isValidProgressData, recToJSVal, validMissionEntry,
        validModuleEntry, isValidTimestamp, e1, e2, modulesPerMission,
        totalMissions, ht1pos, h1a, h1b, ht2pos, h2a, h2b]
    rw [initStore, loadProgress, hA, hV, if_pos rfl]
    simp [validateProgress, validModuleEntry, isValidTimestamp, e1, e2,
      modulesPerMission, totalMissions, ht1pos, h1a, h1b, ht2pos, h2a, h2b]
  · intro tneg hneg
    have hnpos : ¬(tneg > 0) := by omega
    have hA : appValidate (.obj [("1", .obj [("2", .num tneg),
        ("1", .num t1)])]) = [("1", [("1", JSVal.num t1)])] := by
      simp [appValidate, appValidateModules, e1, e2, i1, i2, hnpos, ht1pos,
        jset]
    have hV : isValidProgressData now
        (recToJSVal [("1", [("1", JSVal.num t1)])]) = true := by
      simp [isValidProgressData, recToJSVal, validMissionEntry,
        validModuleEntry, isValidTimestamp, e1, modulesPerMission,
        totalMissions, ht1pos, h1a, h1b]
    rw [initStore, loadProgress, hA, hV, if_pos rfl]
    simp [validateProgress, validModuleEntry, isValidTimestamp, e1,
      modulesPerMission, totalMissions, ht1pos, h1a, h1b]
  · intro tf hf
    have hfpos2 : tf > 0 := by omega
    have hfbad : ¬(tf ≤ now) := by omega
    have hA : appValidate (.obj [("1", .obj [("1", .num tf),
        ("2", .num t1)])]) =
        [("1", [("1", JSVal.num tf), ("2", JSVal.num t1)])] := by
      simp [appValidate, appValidateModules, e1, e2, i1, i2, hfpos2, ht1pos,
        jset]
    have hV : isValidProgressData now
        (recToJSVal [("1", [("1", JSVal.num tf), ("2", JSVal.num t1)])]) =
        false := by
      simp [isValidProgressData, recToJSVal, validMissionEntry,
        validModuleEntry, isValidTimestamp, e1, e2, modulesPerMission,
        totalMissions, hfbad]
    rw [initStore, loadProgress, hA, hV]
    simp [validateProgress]
  · intro tp hp1 hp2
    have hpbad : ¬(tp > floorMs) := by omega
    have hA : appValidate (.obj [("1", .obj [("1", .num tp),
        ("2", .num t1)])]) =
        [("1", [("1", JSVal.num tp), ("2", JSVal.num t1)])] := by
      simp [appValidate, appValidateModules, e1, e2, i1, i2, hp1, ht1pos,
        jset]
    have hV : isValidProgressData now
        (recToJSVal [("1", [("1", JSVal.num tp), ("2", JSVal.num t1)])]) =
        false := by
      simp [isValidProgressData, recToJSVal, validMissionEntry,
        validModuleEntry, isValidTimestamp, e1, e2, modulesPerMission,
        totalMissions, hpbad]
    rw [initStore, loadProgress, hA, hV]
    simp [validateProgress]

/-- C3 amended witness: a concrete instance with bad module key 9 and
concrete valid timestamps, and the reset behaviors at concrete future and
pre-floor timestamps. -/
theorem load_per_entry_recovery_witness :
    initStore (some (.obj [("1", .obj [(intDecStr 9, .num 1690000000005),
        ("1", .num 1690000000001)]),
        ("2", .obj [("1", .num 1690000000002)])])) 1700000000000 =
      [("1", [("1", .num 1690000000001)]), ("2", [("1", .num 1690000000002)])] ∧
    initStore (some (.obj [("1", .obj [("2", .num (-5)),
        ("1", .num 1690000000001)])])) 1700000000000 =
      [("1", [("1", .num 1690000000001)])] ∧
    initStore (some (.obj [("1", .obj [("1", .num 1800000000000),
        ("2", .num 1690000000001)])])) 1700000000000 = [] ∧
    initStore (some (.obj [("1", .obj [("1", .num 5),
        ("2", .num 1690000000001)])])) 1700000000000 = [] := by
  have h := load_per_entry_recovery 1700000000000 1690000000001 1690000000002
    1690000000005 9 (by decide) (by decide) (by decide) (by decide) (by decide)
  exact ⟨h.1, h.2.1 (-5) (by decide), h.2.2.1 1800000000000 (by decide),
    h.2.2.2 5 (by decide) (by decide)⟩

/-! Characterizations of the validators and the record invariant, used for
invariant preservation over operation sequences. -/

theorem validModuleEntry_iff (now mx : Int) (q : String × JSVal) :
    validModuleEntry now mx q = true ↔
      ∃ n, parseIntJS q.1 = some n ∧ n ≠ 0 ∧ 1 ≤ n ∧ n ≤ mx ∧
        isValidTimestamp now q.2 = true := by
  unfold validModuleEntry
  cases hp : parseIntJS q.1 with
  | none => simp
  | some n =>
      simp only [Bool.and_eq_true, decide_eq_true_eq, Option.some.injEq]
      constructor
      · intro h
        exact ⟨n, rfl, by tauto, by tauto, by tauto, by tauto⟩
      · rintro ⟨n2, rfl, h0, h1, h2, h3⟩
        exact ⟨⟨⟨h0, h1⟩, h2⟩, h3⟩

theorem validMissionEntry_iff (now : Int) (e : String × JSVal) :
    validMissionEntry now e = true ↔
      ∃ m mods, parseIntJS e.1 = some m ∧ m ≠ 0 ∧ 1 ≤ m ∧ m ≤ 5 ∧
        e.2 = .obj mods ∧
        ∀ q ∈ mods, validModuleEntry now (modCount m) q = true := by
  unfold validMissionEntry
  cases hp : parseIntJS e.1 with
  | none => simp
  | some m =>
      cases hobj : e.2 with
      | obj mods =>
          simp only [Bool.and_eq_true, decide_eq_true_eq, List.all_eq_true,
            Option.some.injEq, totalMissions]
          constructor
          · intro h
            refine ⟨m, mods, rfl, by tauto, by tauto, by tauto, rfl, ?_⟩
            intro q hq
            have hall : ∀ x ∈ mods,
                validModuleEntry now ((modulesPerMission m).getD 0) x = true := by
              tauto
            exact hall q hq
          · rintro ⟨m2, mods2, rfl, h0, h1, h2, hm, hq⟩
            injection hm with hm2
            subst hm2
            exact ⟨⟨⟨h0, h1⟩, h2⟩, hq⟩
      | num t => simp
      | str s => simp
      | jbool b => simp
      | jnull => simp

theorem entryInv_iff (now : Int) (e : String × ModMap) :
    entryInv now e = true ↔
      ∃ m, parseIntJS e.1 = some m ∧ 1 ≤ m ∧ m ≤ 5 ∧
        ∀ q ∈ e.2, (∃ n, parseIntJS q.1 = some n ∧ 1 ≤ n ∧ n ≤ modCount m) ∧
          isValidTimestamp now q.2 = true := by
  unfold entryInv
  cases hp : parseIntJS e.1 with
  | none => simp
  | some m =>
      simp only [Bool.and_eq_true, decide_eq_true_eq, List.all_eq_true,
        Option.some.injEq]
      constructor
      · intro h
        obtain ⟨⟨h1, h2⟩, hall⟩ := h
        refine ⟨m, rfl, h1, h2, ?_⟩
        intro q hq
        obtain ⟨hx1, hx2⟩ := hall q hq
        cases hqn : parseIntJS q.1 with
        | none => rw [hqn] at hx1; simp at hx1
        | some n =>
            rw [hqn] at hx1
            simp only [Bool.and_eq_true, decide_eq_true_eq] at hx1
            exact ⟨⟨n, rfl, hx1.1, hx1.2⟩, hx2⟩
      · rintro ⟨m2, rfl, h1, h2, hq⟩
        refine ⟨⟨h1, h2⟩, ?_⟩
        intro x hx
        obtain ⟨⟨n, hn, hn1, hn2⟩, hts⟩ := hq x hx
        rw [hn]
        simp [hn1, hn2, hts]

theorem recInvariant_iff (now : Int) (p : ProgressRec) :
    recInvariant now p = true ↔ ∀ e ∈ p, entryInv now e = true := by
  rw [recInvariant, List.all_eq_true]

theorem isValidMissionModule_iff (mv nv : JSVal) :
    isValidMissionModule mv nv = true ↔
      ∃ m n, parseIntJS (jsToStr mv) = some m ∧ 1 ≤ m ∧ m ≤ 5 ∧
        parseIntJS (jsToStr nv) = some n ∧ 1 ≤ n ∧ n ≤ modCount m := by
  unfold isValidMissionModule isValidMission
  cases hm : parseIntJS (jsToStr mv) with
  | none => simp
  | some m =>
      cases hn : parseIntJS (jsToStr nv) with
      | none =>
          simp only [Option.some.injEq, totalMissions]
          constructor
          · intro h
            by_cases hb : (decide (1 ≤ m) && decide (m ≤ 5)) = true
            · rw [hb] at h
              simp at h
            · have hb2 : (decide (1 ≤ m) && decide (m ≤ 5)) = false := by
                rw [Bool.eq_false_iff]
                exact hb
              simp [hb2] at h
          · rintro ⟨m2, n, rfl, h1, h2, hsome, _⟩
            cases hsome
      | some n =>
          simp only [Option.some.injEq, totalMissions]
          constructor
          · intro h
            by_cases hb : (decide (1 ≤ m) && decide (m ≤ 5)) = true
            · simp only [Bool.and_eq_true, decide_eq_true_eq] at hb
              rw [modulesPerMission_eq_some hb.1 hb.2] at h
              simp only [hb.1, hb.2, decide_True, Bool.and_self,
                Bool.not_true, Bool.false_eq_true, if_false,
                Bool.and_eq_true, decide_eq_true_eq] at h
              exact ⟨m, n, rfl, hb.1, hb.2, rfl, h.1, h.2⟩
            · have hb2 : (decide (1 ≤ m) && decide (m ≤ 5)) = false := by
                rw [Bool.eq_false_iff]
                exact hb
              simp [hb2] at h
          · rintro ⟨m2, n2, hm2, h1, h2, hn2, h3, h4⟩
            subst hm2
            subst hn2
            rw [modulesPerMission_eq_some h1 h2]
            simp [h1, h2, h3, h4]

theorem isValidTimestamp_mono {t t2 : Int} (h : t ≤ t2) {v : JSVal}
    (hv : isValidTimestamp t v = true) : isValidTimestamp t2 v = true := by
  cases v with
  | num n =>
      simp only [isValidTimestamp, Bool.and_eq_true, decide_eq_true_eq] at hv ⊢
      omega
  | str s => simp [isValidTimestamp] at hv
  | jbool b => simp [isValidTimestamp] at hv
  | jnull => simp [isValidTimestamp] at hv
  | obj l => simp [isValidTimestamp] at hv

theorem entryInv_mono {t t2 : Int} (h : t ≤ t2) {e : String × ModMap}
    (he : entryInv t e = true) : entryInv t2 e = true := by
  rw [entryInv_iff] at he ⊢
  obtain ⟨m, hm, h1, h2, hq⟩ := he
  refine ⟨m, hm, h1, h2, ?_⟩
  intro q hqmem
  obtain ⟨hkey, hts⟩ := hq q hqmem
  exact ⟨hkey, isValidTimestamp_mono h hts⟩

theorem recInvariant_mono {t t2 : Int} (h : t ≤ t2) {p : ProgressRec}
    (hp : recInvariant t p = true) : recInvariant t2 p = true := by
  rw [recInvariant_iff] at hp ⊢
  exact fun e he => entryInv_mono h (hp e he)

theorem mem_foldl_jset_map {β : Type} {f : JSVal → β}
    {l : List (String × JSVal)} :
    ∀ (acc : List (String × β)) (x : String × β),
      x ∈ l.foldl (fun acc e => jset acc e.1 (f e.2)) acc →
      x ∈ acc ∨ ∃ e ∈ l, x = (e.1, f e.2) := by
  induction l with
  | nil =>
      intro acc x hx
      exact Or.inl hx
  | cons e t ih =>
      intro acc x hx
      rw [List.foldl_cons] at hx
      rcases ih _ x hx with h | h
      · rcases mem_jset h with h2 | h2
        · exact Or.inl h2
        · exact Or.inr ⟨e, List.mem_cons_self _ _, h2⟩
      · obtain ⟨e2, he2, hxe⟩ := h
        exact Or.inr ⟨e2, List.mem_cons_of_mem _ he2, hxe⟩

theorem mem_modsOfVal {mods : List (String × JSVal)} {q : String × JSVal}
    (hq : q ∈ modsOfVal (.obj mods)) : q ∈ mods := by
  unfold modsOfVal at hq
  have := mem_foldl_jset_map (f := id) [] q hq
  rcases this with h | h
  · simp at h
  · obtain ⟨e, he, rfl⟩ := h
    simpa using he

theorem mem_recOfVal {fields : List (String × JSVal)} {x : String × ModMap}
    (hx : x ∈ recOfVal (.obj fields)) :
    ∃ e ∈ fields, x = (e.1, modsOfVal e.2) := by
  unfold recOfVal at hx
  have := mem_foldl_jset_map (f := modsOfVal) [] x hx
  rcases this with h | h
  · simp at h
  · exact h

theorem importProgress_invariant {now : Int} {payload : JSVal}
    (h : isValidProgressData now payload = true) :
    recInvariant now (recOfVal payload) = true := by
  cases payload with
  | num n => simp [isValidProgressData] at h
  | str s => simp [isValidProgressData] at h
  | jbool b => simp [isValidProgressData] at h
  | jnull => simp [isValidProgressData] at h
  | obj fields =>
      rw [recInvariant_iff]
      intro x hx
      obtain ⟨e, he, rfl⟩ := mem_recOfVal hx
      rw [isValidProgressData, List.all_eq_true] at h
      have hgood := h e he
      rw [validMissionEntry_iff] at hgood
      obtain ⟨m, mods, hm, hm0, hm1, hm5, hobj, hmods⟩ := hgood
      rw [entryInv_iff]
      refine ⟨m, hm, hm1, hm5, ?_⟩
      intro q hq
      rw [hobj] at hq
      have hqmem := mem_modsOfVal hq
      have hqgood := hmods q hqmem
      rw [validModuleEntry_iff] at hqgood
      obtain ⟨n, hn, hn0, hn1, hn2, hts⟩ := hqgood
      exact ⟨⟨n, hn, hn1, hn2⟩, hts⟩

theorem validateProgress_invariant (now : Int) (q : ProgressRec) :
    recInvariant now (validateProgress now q) = true ∧
    noEmptyMission (validateProgress now q) = true := by
  constructor
  · rw [recInvariant_iff]
    intro x hx
    unfold validateProgress at hx
    rw [List.mem_filterMap] at hx
    obtain ⟨e, he, hfe⟩ := hx
    cases hp : parseIntJS e.1 with
    | none =>
        rw [hp] at hfe
        dsimp only at hfe
        cases hfe
    | some m =>
        rw [hp] at hfe
        dsimp only at hfe
        by_cases hrange : m = 0 ∨ m < 1 ∨ m > totalMissions
        · rw [if_pos hrange] at hfe
          cases hfe
        · rw [if_neg hrange] at hfe
          by_cases hemp : (e.2.filter
              (validModuleEntry now ((modulesPerMission m).getD 0))).isEmpty
          · rw [if_pos hemp] at hfe
            cases hfe
          · rw [if_neg hemp] at hfe
            injection hfe with hfe
            subst hfe
            rw [entryInv_iff]
            refine ⟨m, hp, by omega, by
              simp only [totalMissions] at hrange
              omega, ?_⟩
            intro q2 hq2
            have hq2f := List.mem_filter.mp hq2
            have hvm := hq2f.2
            rw [validModuleEntry_iff] at hvm
            obtain ⟨n, hn, hn0, hn1, hn2, hts⟩ := hvm
            exact ⟨⟨n, hn, hn1, hn2⟩, hts⟩
  · rw [noEmptyMission, List.all_eq_true]
    intro x hx
    unfold validateProgress at hx
    rw [List.mem_filterMap] at hx
    obtain ⟨e, he, hfe⟩ := hx
    cases hp : parseIntJS e.1 with
    | none =>
        rw [hp] at hfe
        dsimp only at hfe
        cases hfe
    | some m =>
        rw [hp] at hfe
        dsimp only at hfe
        by_cases hrange : m = 0 ∨ m < 1 ∨ m > totalMissions
        · rw [if_pos hrange] at hfe
          cases hfe
        · rw [if_neg hrange] at hfe
          by_cases hemp : (e.2.filter
              (validModuleEntry now ((modulesPerMission m).getD 0))).isEmpty
          · rw [if_pos hemp] at hfe
            cases hfe
          · rw [if_neg hemp] at hfe
            injection hfe with hfe
            subst hfe
            simpa using hemp

theorem initStore_invariant (stored : Option JSVal) (now : Int) :
    recInvariant now (initStore stored now) = true ∧
    noEmptyMission (initStore stored now) = true := by
  unfold initStore
  exact validateProgress_invariant now _

theorem setModuleCompletion_invariant {now : Int} {p : ProgressRec}
    (mv nv c : JSVal) (hnow : floorMs < now)
    (hp : recInvariant now p = true) :
    recInvariant now (setModuleCompletion p mv nv c now).2 = true := by
  by_cases hv : isValidMissionModule mv nv = true
  · obtain ⟨m, n, hm, hm1, hm5, hn, hn1, hn2⟩ :=
      (isValidMissionModule_iff mv nv).mp hv
    by_cases hc : jsTruthy c = true
    · rw [setModuleCompletion_true_eq p mv nv c now hv hc]
      rw [recInvariant_iff] at hp ⊢
      intro x hx
      rcases mem_jset hx with h | h
      · exact hp x h
      · subst h
        rw [entryInv_iff]
        refine ⟨m, hm, hm1, hm5, ?_⟩
        intro q hq
        rcases mem_jset hq with h2 | h2
        · cases hg : jget p (jsToStr mv) with
          | none => rw [hg] at h2; simp at h2
          | some mods =>
              rw [hg] at h2
              simp only [Option.getD_some] at h2
              have hent := hp _ (jget_mem hg)
              rw [entryInv_iff] at hent
              obtain ⟨m2, hm2, _, _, hq2⟩ := hent
              rw [hm] at hm2
              injection hm2 with hm2
              subst hm2
              exact hq2 q h2
        · subst h2
          refine ⟨⟨n, hn, hn1, hn2⟩, ?_⟩
          simp only [isValidTimestamp, Bool.and_eq_true, decide_eq_true_eq]
          have hfpos : (0 : Int) < floorMs := by decide
          exact ⟨⟨by omega, le_refl _⟩, hnow⟩
    · have hcf : jsTruthy c = false := by
        cases hcv : jsTruthy c
        · rfl
        · exact absurd hcv hc
      cases hg : jget p (jsToStr mv) with
      | none =>
          have hs : (setModuleCompletion p mv nv c now).2 = p := by
            simp [setModuleCompletion, hv, hcf, hg]
          rw [hs]
          exact hp
      | some mods =>
          by_cases he : (jerase mods (jsToStr nv)).isEmpty
          · have hs : (setModuleCompletion p mv nv c now).2 =
                jerase p (jsToStr mv) := by
              simp [setModuleCompletion, hv, hcf, hg, he]
            rw [hs, recInvariant_iff]
            rw [recInvariant_iff] at hp
            intro x hx
            exact hp x (mem_jerase hx)
          · have hs : (setModuleCompletion p mv nv c now).2 =
                jset p (jsToStr mv) (jerase mods (jsToStr nv)) := by
              simp [setModuleCompletion, hv, hcf, hg, he]
            rw [hs, recInvariant_iff]
            rw [recInvariant_iff] at hp
            intro x hx
            rcases mem_jset hx with h | h
            · exact hp x h
            · subst h
              have hent := hp _ (jget_mem hg)
              rw [entryInv_iff] at hent ⊢
              obtain ⟨m2, hm2, ha, hb, hq2⟩ := hent
              exact ⟨m2, hm2, ha, hb, fun q hq => hq2 q (mem_jerase hq)⟩
  · have hvf : isValidMissionModule mv nv = false := by
      cases hvv : isValidMissionModule mv nv
      · rfl
      · exact absurd hvv hv
    have hs : (setModuleCompletion p mv nv c now).2 = p := by
      simp [setModuleCompletion, hvf]
    rw [hs]
    exact hp

theorem setModuleCompletion_noEmpty {p : ProgressRec} (mv nv c : JSVal)
    (now : Int) (hp : noEmptyMission p = true) :
    noEmptyMission (setModuleCompletion p mv nv c now).2 = true := by
  by_cases hv : isValidMissionModule mv nv = true
  · by_cases hc : jsTruthy c = true
    · rw [setModuleCompletion_true_eq p mv nv c now hv hc]
      rw [noEmptyMission, List.all_eq_true] at hp ⊢
      intro x hx
      rcases mem_jset hx with h | h
      · exact hp x h
      · subst h
        simp [List.isEmpty_iff, jset_ne_nil]
    · have hcf : jsTruthy c = false := by
        cases hcv : jsTruthy c
        · rfl
        · exact absurd hcv hc
      cases hg : jget p (jsToStr mv) with
      | none =>
          have hs : (setModuleCompletion p mv nv c now).2 = p := by
            simp [setModuleCompletion, hv, hcf, hg]
          rw [hs]
          exact hp
      | some mods =>
          by_cases he : (jerase mods (jsToStr nv)).isEmpty
          · have hs : (setModuleCompletion p mv nv c now).2 =
                jerase p (jsToStr mv) := by
              simp [setModuleCompletion, hv, hcf, hg, he]
            rw [hs, noEmptyMission, List.all_eq_true]
            rw [noEmptyMission, List.all_eq_true] at hp
            intro x hx
            exact hp x (mem_jerase hx)
          · have hs : (setModuleCompletion p mv nv c now).2 =
                jset p (jsToStr mv) (jerase mods (jsToStr nv)) := by
              simp [setModuleCompletion, hv, hcf, hg, he]
            rw [hs, noEmptyMission, List.all_eq_true]
            rw [noEmptyMission, List.all_eq_true] at hp
            intro x hx
            rcases mem_jset hx with h | h
            · exact hp x h
            · subst h
              simpa using he
  · have hvf : isValidMissionModule mv nv = false := by
      cases hvv : isValidMissionModule mv nv
      · rfl
      · exact absurd hvv hv
    have hs : (setModuleCompletion p mv nv c now).2 = p := by
      simp [setModuleCompletion, hvf]
    rw [hs]
    exact hp

theorem resetProgress_invariant {now : Int} {p : ProgressRec} (confirm : JSVal)
    (hp : recInvariant now p = true) :
    recInvariant now (resetProgress p confirm).2 = true := by
  cases hcv : jsTruthy confirm <;> simp [resetProgress, hcv]
  · exact hp
  · rfl

theorem resetProgress_noEmpty {p : ProgressRec} (confirm : JSVal)
    (hp : noEmptyMission p = true) :
    noEmptyMission (resetProgress p confirm).2 = true := by
  cases hcv : jsTruthy confirm <;> simp [resetProgress, hcv]
  · exact hp
  · rfl

theorem runOps_invariant (ops : List StoreOp) :
    ∀ (t : Int) (p : ProgressRec), floorMs < t →
      timesOKb t ops = true → recInvariant t p = true →
      recInvariant (endTime t ops) (runOps p ops) = true ∧
      (noEmptyMission p = true → hasImportOp ops = false →
        noEmptyMission (runOps p ops) = true) := by
  induction ops with
  | nil =>
      intro t p ht htok hp
      exact ⟨hp, fun h _ => h⟩
  | cons op rest ih =>
      intro t p ht htok hp
      have hrun : runOps p (op :: rest) = runOps (applyOp p op) rest := by
        simp [runOps]
      cases op with
      | setCompletion mv nv c now =>
          simp only [timesOKb, opTime, Bool.and_eq_true, decide_eq_true_eq]
            at htok
          obtain ⟨htn, hrest⟩ := htok
          have hnow : floorMs < now := lt_of_lt_of_le ht htn
          have hstep : recInvariant now (applyOp p (.setCompletion mv nv c now)) = true :=
            setModuleCompletion_invariant mv nv c hnow (recInvariant_mono htn hp)
          have hind := ih now _ hnow hrest hstep
          have hend : endTime t (StoreOp.setCompletion mv nv c now :: rest) =
              endTime now rest := by
            simp [endTime, opTime]
          rw [hrun, hend]
          refine ⟨hind.1, ?_⟩
          intro hne himp
          simp only [hasImportOp, List.any_cons, Bool.or_eq_false_iff] at himp
          have himp2 : hasImportOp rest = false := by
            rw [hasImportOp]
            exact himp.2
          exact hind.2 (setModuleCompletion_noEmpty mv nv c now hne) himp2
      | doImport payload now =>
          simp only [timesOKb, opTime, Bool.and_eq_true, decide_eq_true_eq]
            at htok
          obtain ⟨htn, hrest⟩ := htok
          have hnow : floorMs < now := lt_of_lt_of_le ht htn
          have hstep : recInvariant now (applyOp p (.doImport payload now)) = true := by
            by_cases hval : isValidProgressData now payload = true
            · have : applyOp p (.doImport payload now) = recOfVal payload := by
                simp [applyOp, importProgress, hval]
              rw [this]
              exact importProgress_invariant hval
            · have hvf : isValidProgressData now payload = false := by
                cases hvv : isValidProgressData now payload
                · rfl
                · exact absurd hvv hval
              have : applyOp p (.doImport payload now) = p := by
                simp [applyOp, importProgress, hvf]
              rw [this]
              exact recInvariant_mono htn hp
          have hind := ih now _ hnow hrest hstep
          have hend : endTime t (StoreOp.doImport payload now :: rest) =
              endTime now rest := by
            simp [endTime, opTime]
          rw [hrun, hend]
          refine ⟨hind.1, ?_⟩
          intro hne himp
          simp [hasImportOp, List.any_cons] at himp
      | doReset confirm =>
          simp only [timesOKb, opTime] at htok
          have hstep : recInvariant t (applyOp p (.doReset confirm)) = true :=
            resetProgress_invariant confirm hp
          have hind := ih t _ ht htok hstep
          have hend : endTime t (StoreOp.doReset confirm :: rest) =
              endTime t rest := by
            simp [endTime, opTime]
          rw [hrun, hend]
          refine ⟨hind.1, ?_⟩
          intro hne himp
          simp only [hasImportOp, List.any_cons, Bool.or_eq_false_iff] at himp
          have himp2 : hasImportOp rest = false := by
            rw [hasImportOp]
            exact himp.2
          exact hind.2 (resetProgress_noEmpty confirm hne) himp2
      | doLoad stored now =>
          simp only [timesOKb, opTime, Bool.and_eq_true, decide_eq_true_eq]
            at htok
          obtain ⟨htn, hrest⟩ := htok
          have hnow : floorMs < now := lt_of_lt_of_le ht htn
          have hstep := initStore_invariant stored now
          have hind := ih now _ hnow hrest hstep.1
          have hend : endTime t (StoreOp.doLoad stored now :: rest) =
              endTime now rest := by
            simp [endTime, opTime]
          rw [hrun, hend]
          refine ⟨hind.1, ?_⟩
          intro hne himp
          simp only [hasImportOp, List.any_cons, Bool.or_eq_false_iff] at himp
          have himp2 : hasImportOp rest = false := by
            rw [hasImportOp]
            exact himp.2
          exact hind.2 hstep.2 himp2

/-- C4 counterexample: starting from the empty record, the single public
operation importProgress of the payload with mission 1 bound to an empty
modules object is accepted, and the resulting record contains a mission
entry with zero module entries — the claimed invariant fails. -/
theorem import_installs_empty_mission :
    runOps [] [.doImport (.obj [("1", .obj [])]) 1700000000000] =
      [("1", [])] ∧
    noEmptyMission [("1", ([] : ModMap))] = false :=
  ⟨rfl, rfl⟩

/-- C4 amended: starting from the empty record, every sequence of public
store operations run at nondecreasing post-2020 clock values preserves the
key-pair and timestamp invariants — every mission key denotes (parses to) a
mission number in `[1, 5]`, every module key denotes a module number in
`[1, moduleCount mission]`, and every stored timestamp passes the
timestamp-validity predicate at the final clock value. The no-empty-mission
invariant is preserved by every sequence that contains no importProgress
operation; importProgress itself may install a mission entry with zero
module entries, because an empty modules object passes import
validation. -/
theorem storeOps_invariants (ops : List StoreOp) (t : Int)
    (ht : floorMs < t) (hok : timesOKb t ops = true) :
    recInvariant (endTime t ops) (runOps [] ops) = true ∧
    (hasImportOp ops = false → noEmptyMission (runOps [] ops) = true) := by
  have h := runOps_invariant ops t [] ht hok rfl
  exact ⟨h.1, fun himp => h.2 rfl himp⟩

/-- C4 amended witness: a concrete two-operation sequence (a completion
then a confirmed reset) at concrete post-2020 times satisfies the
hypotheses, and the conclusion holds for it. -/
theorem storeOps_invariants_witness :
    floorMs < floorMs + 1 ∧
    timesOKb (floorMs + 1)
      [.setCompletion (.num 1) (.num 1) (.jbool true) (floorMs + 2),
        .doReset (.jbool true)] = true ∧
    (recInvariant
        (endTime (floorMs + 1)
          [.setCompletion (.num 1) (.num 1) (.jbool true) (floorMs + 2),
            .doReset (.jbool true)])
        (runOps []
          [.setCompletion (.num 1) (.num 1) (.jbool true) (floorMs + 2),
            .doReset (.jbool true)]) = true ∧
      (hasImportOp
          [.setCompletion (.num 1) (.num 1) (.jbool true) (floorMs + 2),
            .doReset (.jbool true)] = false →
        noEmptyMission
          (runOps []
            [.setCompletion (.num 1) (.num 1) (.jbool true) (floorMs + 2),
              .doReset (.jbool true)]) = true)) :=
  ⟨by decide, by decide,
    storeOps_invariants
      [.setCompletion (.num 1) (.num 1) (.jbool true) (floorMs + 2),
        .doReset (.jbool true)]
      (floorMs + 1) (by decide) (by decide)⟩

end AIPath
